import Mathlib

/-
  Shallow embedding of the Multi-Paxos replica library (message.rs,
  storage.rs, thread/acceptor.rs, thread/scout.rs, thread/leader.rs,
  thread/replica.rs).  Rust HashMap values are modelled as association
  lists with replace-on-insert semantics; HashSet values as lists with
  the same element equality the Rust types derive.  Machine integers
  (usize) are modelled as Nat: the program only increments session-local
  counters, so overflow is unreachable in any realistic execution.
-/

namespace Paxos

/-- Ballot from message.rs: leader-local sequence number b_id and leader
id l_id, compared lexicographically (derived Ord, field order). -/
structure Ballot where
  b_id : Nat
  l_id : Nat
deriving DecidableEq

/-- Lexicographic order on ballots, b_id dominant, as derived by Rust Ord. -/
def Ballot.le (a b : Ballot) : Prop :=
  a.b_id < b.b_id ∨ (a.b_id = b.b_id ∧ a.l_id ≤ b.l_id)

instance : LE Ballot := ⟨Ballot.le⟩

instance Ballot.instDecidableLE (a b : Ballot) : Decidable (a ≤ b) :=
  inferInstanceAs (Decidable (a.b_id < b.b_id ∨ (a.b_id = b.b_id ∧ a.l_id ≤ b.l_id)))

instance : LT Ballot := ⟨fun a b => a ≤ b ∧ ¬ b ≤ a⟩

theorem Ballot.le_def (a b : Ballot) :
    a ≤ b ↔ (a.b_id < b.b_id ∨ (a.b_id = b.b_id ∧ a.l_id ≤ b.l_id)) := Iff.rfl

instance : LinearOrder Ballot where
  le_refl a := Or.inr ⟨rfl, Nat.le_refl _⟩
  le_trans a b c hab hbc := by
    rcases hab with h | ⟨h1, h2⟩ <;> rcases hbc with h3 | ⟨h3, h4⟩
    · exact Or.inl (Nat.lt_trans h h3)
    · exact Or.inl (h3 ▸ h)
    · exact Or.inl (h1 ▸ h3)
    · exact Or.inr ⟨h1.trans h3, Nat.le_trans h2 h4⟩
  le_antisymm a b hab hba := by
    have hb : a.b_id = b.b_id := by
      rcases hab with h | ⟨h1, h2⟩ <;> rcases hba with h3 | ⟨h3, h4⟩ <;> omega
    have hl : a.l_id = b.l_id := by
      rcases hab with h | ⟨h1, h2⟩ <;> rcases hba with h3 | ⟨h3, h4⟩ <;> omega
    cases a; cases b; simp_all
  le_total a b := by
    rcases Nat.lt_trichotomy a.b_id b.b_id with h | h | h
    · exact Or.inl (Or.inl h)
    · rcases Nat.le_total a.l_id b.l_id with h2 | h2
      · exact Or.inl (Or.inr ⟨h, h2⟩)
      · exact Or.inr (Or.inr ⟨h.symm, h2⟩)
    · exact Or.inr (Or.inl h)
  lt_iff_le_not_le a b := Iff.rfl
  decidableLE := Ballot.instDecidableLE

/-- Command from message.rs: the wrapper around a user command.  The
user trait methods client_id and local_id are modelled as fields, and
the opaque payload as a third field; equality of the wrapper in the
source ignores the payload. -/
structure Cmd where
  client_id : Nat
  local_id : Nat
  payload : Nat
deriving DecidableEq

/-- CommandKey: the pair of client id and client-local id. -/
def keyOf (c : Cmd) : Nat × Nat := (c.client_id, c.local_id)

/-- PartialEq for message.rs Command: compares client_id and local_id
only, ignoring the payload. -/
def cmdEq (a b : Cmd) : Bool :=
  a.client_id == b.client_id && a.local_id == b.local_id

/-- PValue from message.rs: slot, ballot, command. -/
structure PValue where
  s_id : Nat
  b_id : Ballot
  command : Cmd
deriving DecidableEq

/-- Derived PartialEq for PValue: fieldwise, with the key-based command
equality of the Command wrapper. -/
def pvEq (a b : PValue) : Bool :=
  a.s_id == b.s_id && decide (a.b_id = b.b_id) && cmdEq a.command b.command

/-- CommanderID from message.rs: ballot and slot. -/
structure CommanderID where
  b_id : Ballot
  s_id : Nat
deriving DecidableEq

/-- P1A as used by thread/acceptor.rs and thread/scout.rs: the scout
ballot plus an optional decided-slot hint. -/
structure P1A where
  b_id : Ballot
  decided : Option Nat
deriving DecidableEq

/-- P1B from message.rs: acceptor id, acceptor ballot, accepted pvalues. -/
structure P1B where
  a_id : Nat
  b_id : Ballot
  pvalues : List PValue
deriving DecidableEq

/-- P2B from message.rs: acceptor id and its current ballot. -/
structure P2B where
  a_id : Nat
  b_id : Ballot
deriving DecidableEq

/-- Proposal from message.rs: slot and command. -/
structure Proposal where
  s_id : Nat
  command : Cmd
deriving DecidableEq

/-
  Association-list model of std::collections::HashMap with Nat keys.
  Lookup returns the first binding; insert removes every binding for the
  key before prepending the new one, so lookup behaves exactly like the
  replace-on-insert HashMap.  Iteration order of a HashMap is
  unspecified, and every iteration the embedded code performs is
  order-insensitive, so the list order is immaterial.
-/

/-- Association-list map with Nat keys modelling HashMap of usize. -/
abbrev AssocMap (α : Type) := List (Nat × α)

/-- HashMap lookup: first binding for the key, if any. -/
def AssocMap.find {α : Type} (m : AssocMap α) (k : Nat) : Option α :=
  (m.find? (fun e => e.1 == k)).map Prod.snd

/-- HashMap insert: replaces any existing binding for the key. -/
def AssocMap.insert {α : Type} (m : AssocMap α) (k : Nat) (v : α) : AssocMap α :=
  (k, v) :: m.filter (fun e => e.1 != k)

/-- The keys of the map are pairwise distinct (true of any HashMap). -/
def AssocMap.keysNodup {α : Type} (m : AssocMap α) : Prop :=
  (m.map Prod.fst).Nodup

/-
  Acceptor (thread/acceptor.rs).
-/

/-- Stable from thread/acceptor.rs: highest ballot seen and the most
recently accepted PValue per slot. -/
structure AcceptorStable where
  ballot : Ballot
  accepted : AssocMap PValue
deriving DecidableEq

/-- Derived Default for Stable: Ballot default is b_id = 0, l_id = 0,
and the accepted map is empty. -/
def acceptorDefault : AcceptorStable := { ballot := ⟨0, 0⟩, accepted := [] }

/-- Acceptor::new: loads the persisted record if present, otherwise the
derived default.  The id argument names the storage file only; the
default record does not depend on it. -/
def acceptorNew (_id : Nat) (loaded : Option AcceptorStable) : AcceptorStable :=
  loaded.getD acceptorDefault

/-- Acceptor::send_p1a: raise the ballot to the max of the stored and
incoming ballots, persist, and reply with a P1B carrying the stored
pvalues filtered by the decided-slot hint. -/
def sendP1A (id : Nat) (st : AcceptorStable) (p1a : P1A) : AcceptorStable × P1B :=
  let st := { st with ballot := max p1a.b_id st.ballot }
  let pvalues := (st.accepted.map Prod.snd).filter
    (fun pv => match p1a.decided with
      | none => true
      | some d => decide (d < pv.s_id))
  (st, { a_id := id, b_id := st.ballot, pvalues := pvalues })

/-- Acceptor::send_p2a: if the incoming ballot is at least the stored
one, adopt it and store the pvalue under its slot; always reply with a
P2B carrying the acceptor id and the stored ballot after the update. -/
def sendP2A (id : Nat) (st : AcceptorStable) (pv : PValue) : AcceptorStable × P2B :=
  let st :=
    if st.ballot ≤ pv.b_id then
      { st with ballot := pv.b_id, accepted := st.accepted.insert pv.s_id pv }
    else st
  (st, { a_id := id, b_id := st.ballot })

/-- Input alphabet of the acceptor task (enum In of thread/acceptor.rs). -/
inductive AcceptorIn where
  | p1a (m : P1A)
  | p2a (cid : CommanderID) (pv : PValue)
deriving DecidableEq

/-- Output of one acceptor step: a P1B or P2B routed to the ballot
leader (first component is the destination server id). -/
inductive AcceptorOut where
  | p1b (dest : Nat) (m : P1B)
  | p2b (dest : Nat) (cid : CommanderID) (m : P2B)
deriving DecidableEq

/-- One iteration of the acceptor poll loop. -/
def acceptorStep (id : Nat) (st : AcceptorStable) : AcceptorIn → AcceptorStable × AcceptorOut
  | .p1a m =>
    let r := sendP1A id st m
    (r.1, .p1b m.b_id.l_id r.2)
  | .p2a cid pv =>
    let r := sendP2A id st pv
    (r.1, .p2b pv.b_id.l_id cid r.2)

/-- The acceptor state after processing a sequence of inputs. -/
def acceptorRun (id : Nat) (st : AcceptorStable) : List AcceptorIn → AcceptorStable
  | [] => st
  | m :: rest => acceptorRun id (acceptorStep id st m).1 rest

/-- The acceptor state after a sequence of inputs, together with the
list of pvalues it stored (the P2A messages that passed the ballot
check and were inserted into the accepted map), in arrival order. -/
def acceptorRunLog (id : Nat) (st : AcceptorStable) (log : List PValue) :
    List AcceptorIn → AcceptorStable × List PValue
  | [] => (st, log)
  | .p1a m :: rest => acceptorRunLog id (sendP1A id st m).1 log rest
  | .p2a _cid pv :: rest =>
    acceptorRunLog id (sendP2A id st pv).1
      (if st.ballot ≤ pv.b_id then log ++ [pv] else log) rest

/-
  Leader (thread/leader.rs).
-/

/-- One iteration of the pmax accumulation loop in Leader::pmax: keep,
per slot, the pvalue with the greatest ballot, the first seen winning
ties (ties cannot arise when ballots are globally unique). -/
def pmaxStep (m : AssocMap (Ballot × Cmd)) (pv : PValue) : AssocMap (Ballot × Cmd) :=
  match m.find pv.s_id with
  | some bc =>
    if bc.1 < pv.b_id then m.insert pv.s_id (pv.b_id, pv.command) else m
  | none => m.insert pv.s_id (pv.b_id, pv.command)

/-- The intermediate map of Leader::pmax from slot to (ballot, command). -/
def pmaxMap (pvs : List PValue) : AssocMap (Ballot × Cmd) :=
  pvs.foldl pmaxStep []

/-- Leader::pmax: the slot-to-command map obtained by dropping the
ballots from the intermediate map. -/
def pmax (pvs : List PValue) : AssocMap Cmd :=
  (pmaxMap pvs).map (fun e => (e.1, e.2.2))

/-- Stable from thread/leader.rs: current ballot, planned proposals,
latest known decision. -/
structure LeaderStable where
  ballot : Ballot
  proposals : AssocMap Cmd
  decided : Option Nat
deriving DecidableEq

/-- The volatile part of the leader relevant here: its stable record and
the active flag. -/
structure LeaderSt where
  stable : LeaderStable
  active : Bool
deriving DecidableEq

/-- Leader::respond_adopt: replace the proposals map with pmax of the
collected pvalues, re-insert each old binding whose slot is absent,
persist, spawn a commander for every binding beyond the decided slot,
and become active.  Returns the new leader state and the list of
(slot, command) pairs a commander is spawned for. -/
def respondAdopt (ld : LeaderSt) (pvs : List PValue) : LeaderSt × List (Nat × Cmd) :=
  let merged := ld.stable.proposals.foldl
    (fun m e => if (m.find e.1).isSome then m else m.insert e.1 e.2)
    (pmax pvs)
  let spawned := merged.filter
    (fun e => match ld.stable.decided with
      | some d => decide (d < e.1)
      | none => true)
  ({ stable := { ld.stable with proposals := merged }, active := true }, spawned)

/-
  Scout (thread/scout.rs).
-/

/-- Membership of a pvalue in a list up to the derived PValue equality
(the containment test of the Rust HashSet of PValue). -/
def memPV (pv : PValue) (l : List PValue) : Prop :=
  ∃ q ∈ l, pvEq q pv = true

/-- HashSet insertion for pvalues: add the element unless an equal one
is present. -/
def insertPV (l : List PValue) (pv : PValue) : List PValue :=
  if l.any (fun q => pvEq q pv) then l else pv :: l

/-- HashSet extend: insert every element of the second list. -/
def unionPV (l : List PValue) (new : List PValue) : List PValue :=
  new.foldl insertPV l

/-- Scout state (thread/scout.rs): its ballot, the decided hint, the
minority threshold, the collected pvalues, and the acceptors that have
not replied yet. -/
structure ScoutState where
  ballot : Ballot
  decided : Option Nat
  minority : Nat
  pvalues : List PValue
  waiting : Finset Nat

/-- Result of one scout poll iteration on a P1B: adopt with the
collected pvalues (and terminate), preempt (and terminate), or keep
soliciting. -/
inductive ScoutOut where
  | adopt (pvs : List PValue)
  | preempt (b : Ballot)
  | ignore
deriving DecidableEq

/-- Scout::new: wait for every acceptor in the cluster; the minority
threshold is (count - 1) / 2. -/
def scoutNew (ballot : Ballot) (count : Nat) (decided : Option Nat) : ScoutState :=
  { ballot := ballot
    decided := decided
    minority := (count - 1) / 2
    pvalues := []
    waiting := Finset.range count }

/-- One iteration of the scout poll loop on an incoming P1B. -/
def scoutStep (sc : ScoutState) (p1b : P1B) : ScoutState × ScoutOut :=
  if p1b.b_id = sc.ballot then
    let pvalues := unionPV sc.pvalues p1b.pvalues
    let waiting := sc.waiting.erase p1b.a_id
    let sc := { sc with pvalues := pvalues, waiting := waiting }
    if sc.waiting.card ≤ sc.minority then (sc, .adopt sc.pvalues)
    else (sc, .ignore)
  else if sc.ballot < p1b.b_id then (sc, .preempt p1b.b_id)
  else (sc, .ignore)

/-
  Replica (thread/replica.rs).
-/

/-- Stable from thread/replica.rs: next proposal slot, next decision
slot, and the proposal and decision maps. -/
structure ReplicaStable where
  proposal_slot : Nat
  decision_slot : Nat
  proposals : AssocMap Cmd
  decisions : AssocMap Cmd
deriving DecidableEq

/-- Derived Default for the replica record: zero cursors, empty maps. -/
def replicaDefault : ReplicaStable :=
  { proposal_slot := 0, decision_slot := 0, proposals := [], decisions := [] }

/-- The replica task: its stable record, the user state machine, and
ghost logs of the state-machine invocations made, the responses routed
to clients, and the proposals sent to the leader. -/
structure Replica (σ : Type) where
  stable : ReplicaStable
  state : σ
  execLog : List (Nat × Cmd)
  sent : List (Nat × Nat)
  proposed : List (Nat × Cmd)

/-- Input alphabet of the replica task (enum In of thread/replica.rs). -/
inductive ReplicaIn where
  | request (c : Cmd)
  | decision (p : Proposal)
deriving DecidableEq

/-- The while loop of Replica::propose: advance the slot past every slot
already bound in the proposals or decisions map.  The loop visits at
most one slot per binding, so any fuel above the total number of
bindings makes the result independent of the fuel. -/
def nextFreeSlot (st : ReplicaStable) (k : Nat) : Nat → Nat
  | 0 => k
  | fuel + 1 =>
    if (st.proposals.find k).isSome || (st.decisions.find k).isSome then
      nextFreeSlot st (k + 1) fuel
    else k

/-- Replica::propose: return if any decision equals the command (by
command key); otherwise claim the first free slot, record the proposal,
persist, and send it to the leader. -/
def propose {σ : Type} (r : Replica σ) (c : Cmd) : Replica σ :=
  if r.stable.decisions.any (fun e => cmdEq e.2 c) then r
  else
    let slot := nextFreeSlot r.stable r.stable.proposal_slot
      (r.stable.proposals.length + r.stable.decisions.length + 1)
    { r with
        stable := { r.stable with
          proposal_slot := slot
          proposals := r.stable.proposals.insert slot c }
        proposed := r.proposed ++ [(slot, c)] }

/-- Replica::perform: if some decided slot strictly below the decision
cursor holds a command with the same key, only advance the cursor;
otherwise invoke the state machine at the cursor, route any response to
the originating client, and advance the cursor.  The state machine is
the parameter execF. -/
def perform {σ : Type} (execF : σ → Nat → Cmd → σ × Option Nat)
    (r : Replica σ) (c : Cmd) : Replica σ :=
  if r.stable.decisions.any
      (fun e => cmdEq e.2 c && decide (e.1 < r.stable.decision_slot)) then
    { r with stable := { r.stable with decision_slot := r.stable.decision_slot + 1 } }
  else
    let res := execF r.state r.stable.decision_slot c
    { r with
        stable := { r.stable with decision_slot := r.stable.decision_slot + 1 }
        state := res.1
        execLog := r.execLog ++ [(r.stable.decision_slot, c)]
        sent := r.sent ++ (match res.2 with
          | some out => [(c.client_id, out)]
          | none => []) }

/-- The re-propose step inside the loop of Replica::respond_decision:
if the proposal map binds the cursor slot to a command that differs (by
key equality) from the decided one, it has been bumped and is proposed
again. -/
def reproposeStep {σ : Type} (r : Replica σ) (c1 : Cmd) : Replica σ :=
  match r.stable.proposals.find r.stable.decision_slot with
  | some c2 => if cmdEq c1 c2 then r else propose r c2
  | none => r

/-- The while loop of Replica::respond_decision: while the decision map
binds the cursor slot, re-propose a differing proposal for that slot if
any, then perform the decided command.  Each iteration consumes one
bound slot at or above the cursor, so the loop runs at most once per
binding of the decision map; the fuel passed by respondDecision exceeds
that (decisionLoop_exits below). -/
def decisionLoop {σ : Type} (execF : σ → Nat → Cmd → σ × Option Nat) :
    Nat → Replica σ → Replica σ
  | 0, r => r
  | fuel + 1, r =>
    match r.stable.decisions.find r.stable.decision_slot with
    | none => r
    | some c1 => decisionLoop execF fuel (perform execF (reproposeStep r c1) c1)

/-- Replica::respond_decision: record the decision, persist, and run the
decision loop. -/
def respondDecision {σ : Type} (execF : σ → Nat → Cmd → σ × Option Nat)
    (r : Replica σ) (p : Proposal) : Replica σ :=
  let r := { r with
    stable := { r.stable with
      decisions := r.stable.decisions.insert p.s_id p.command } }
  decisionLoop execF (r.stable.decisions.length + 1) r

/-- One iteration of the replica poll loop. -/
def replicaStep {σ : Type} (execF : σ → Nat → Cmd → σ × Option Nat)
    (r : Replica σ) : ReplicaIn → Replica σ
  | .request c => propose r c
  | .decision p => respondDecision execF r p

/-- The replica after processing a sequence of inputs from the fresh
default state (empty record, fresh state machine s0). -/
def replicaRun {σ : Type} (execF : σ → Nat → Cmd → σ × Option Nat)
    (s0 : σ) (msgs : List ReplicaIn) : Replica σ :=
  msgs.foldl (replicaStep execF)
    { stable := replicaDefault, state := s0, execLog := [], sent := [], proposed := [] }

/-- The recovery loop of Replica::new: index the decision map at every
slot from 0 up to the persisted cursor, replaying each command in slot
order; none if some slot is unbound (in the source this indexing
panics). -/
def replay {σ : Type} (execF : σ → Nat → Cmd → σ × Option Nat)
    (s0 : σ) (st : ReplicaStable) : Option σ :=
  (List.range st.decision_slot).foldl
    (fun acc slot => acc.bind
      (fun s => (st.decisions.find slot).map (fun c => (execF s slot c).1)))
    (some s0)

/-
  Durable store (storage.rs).  A file is a byte sequence; save truncates
  the file and writes the serialization of the record from the start;
  load deserializes the file contents.  The serializer itself is the
  external bincode crate, modelled by an encode function and a decode
  function assumed to invert it (its documented contract).
-/

/-- Storage from storage.rs: the backing file contents. -/
structure Storage (σ : Type) where
  file : List Nat

/-- Storage::save: truncate to length zero, rewind, and serialize the
record into the file, so the file holds exactly the encoding. -/
def Storage.save {σ : Type} (enc : σ → List Nat) (_st : Storage σ) (s : σ) : Storage σ :=
  { file := enc s }

/-- Storage::load: deserialize the file contents, none on failure. -/
def Storage.load {σ : Type} (dec : List Nat → Option σ) (st : Storage σ) : Option σ :=
  dec st.file

/-
  Predicates used by the statements below.
-/

/-- No two pvalues of the collection carry the same slot and ballot with
different commands (true in the protocol because ballots are globally
unique). -/
def NoConflict (pvs : List PValue) : Prop :=
  ∀ pv ∈ pvs, ∀ qv ∈ pvs, pv.s_id = qv.s_id → pv.b_id = qv.b_id → pv.command = qv.command

instance (pvs : List PValue) : Decidable (NoConflict pvs) := by
  unfold NoConflict
  infer_instance

/-- Invariant of the acceptor relative to the list of pvalues it has
stored so far: per-slot uniqueness, and each entry is a stored pvalue of
that slot whose ballot dominates every stored pvalue of the slot and is
bounded by the highest ballot seen. -/
def AcceptorInvariant (st : AcceptorStable) (log : List PValue) : Prop :=
  st.accepted.keysNodup ∧
  (∀ s pv, st.accepted.find s = some pv →
    pv.s_id = s ∧ pv ∈ log ∧ pv.b_id ≤ st.ballot ∧
    ∀ qv ∈ log, qv.s_id = s → qv.b_id ≤ pv.b_id) ∧
  (∀ qv ∈ log, ((st.accepted.find qv.s_id).isSome = true))

/-- Invariant of the replica record claimed by C10: every slot strictly
below the decision cursor is bound in the decision map. -/
def ReplicaInvariant (st : ReplicaStable) : Prop :=
  ∀ s, s < st.decision_slot → ((st.decisions.find s).isSome = true)

/-- Invariant of the replica under a fixed slot-to-key assignment K for
the decided commands: executed commands have pairwise distinct keys,
every execution is recorded below the cursor at a decision slot whose
current binding has the same key, and every decision binding agrees
with K. -/
def KeyInv {σ : Type} (K : Nat → Nat × Nat) (r : Replica σ) : Prop :=
  (r.execLog.map (fun e => keyOf e.2)).Nodup ∧
  (∀ e ∈ r.execLog, e.1 < r.stable.decision_slot ∧
    ∃ c, r.stable.decisions.find e.1 = some c ∧ keyOf c = keyOf e.2) ∧
  (∀ s c, r.stable.decisions.find s = some c → keyOf c = K s)

/-
  Supporting lemmas about the HashMap model.
-/

theorem AssocMap.find_nil {α : Type} (k : Nat) :
    AssocMap.find ([] : AssocMap α) k = none := rfl

theorem AssocMap.find_cons {α : Type} (e : Nat × α) (m : AssocMap α) (k : Nat) :
    AssocMap.find (e :: m) k = if e.1 = k then some e.2 else AssocMap.find m k := by
  by_cases h : e.1 = k
  · have hb : (e.1 == k) = true := by simp [h]
    simp [AssocMap.find, List.find?_cons, hb, h]
  · have hb : (e.1 == k) = false := by simp [h]
    simp [AssocMap.find, List.find?_cons, hb, h]

theorem AssocMap.find_filter_ne {α : Type} (m : AssocMap α) (k s : Nat) (h : s ≠ k) :
    AssocMap.find (m.filter (fun e => e.1 != k)) s = AssocMap.find m s := by
  induction m with
  | nil => rfl
  | cons e l ih =>
    rw [List.filter_cons]
    by_cases hek : e.1 = k
    · have hb : (e.1 != k) = false := by simp [hek]
      rw [hb]
      simp only [Bool.false_eq_true, if_false]
      rw [ih, AssocMap.find_cons, if_neg (by omega)]
    · have hb : (e.1 != k) = true := by simp [hek]
      rw [hb]
      simp only [if_true]
      rw [AssocMap.find_cons, AssocMap.find_cons, ih]

theorem AssocMap.find_insert {α : Type} (m : AssocMap α) (k : Nat) (v : α) (s : Nat) :
    AssocMap.find (m.insert k v) s = if s = k then some v else AssocMap.find m s := by
  by_cases h : s = k
  · simp [AssocMap.insert, AssocMap.find_cons, h]
  · have hk : ¬ k = s := by omega
    unfold AssocMap.insert
    rw [AssocMap.find_cons]
    simp only [if_neg hk, if_neg h]
    exact AssocMap.find_filter_ne m k s h

theorem AssocMap.find_mem {α : Type} {m : AssocMap α} {k : Nat} {v : α}
    (h : AssocMap.find m k = some v) : (k, v) ∈ m := by
  have h2 : ∃ e, List.find? (fun e => e.1 == k) m = some e ∧ e.2 = v := by
    unfold AssocMap.find at h
    cases hf : List.find? (fun e => e.1 == k) m with
    | none => rw [hf] at h; exact absurd h (by simp)
    | some e => rw [hf] at h; exact ⟨e, rfl, by simpa using h⟩
  rcases h2 with ⟨e, hf, hv⟩
  have he1 := List.find?_some hf
  have hmem := List.mem_of_find?_eq_some hf
  have he : e = (k, v) := by
    cases e
    simp only [beq_iff_eq] at he1
    simp_all
  exact he ▸ hmem

theorem AssocMap.mem_find {α : Type} {m : AssocMap α} (hnd : AssocMap.keysNodup m)
    {k : Nat} {v : α} (h : (k, v) ∈ m) : AssocMap.find m k = some v := by
  induction m with
  | nil => simp at h
  | cons e l ih =>
    unfold AssocMap.keysNodup at hnd
    simp only [List.map_cons, List.nodup_cons] at hnd
    rcases List.mem_cons.mp h with he | hl
    · rw [← he, AssocMap.find_cons]; simp
    · have hk : e.1 ≠ k := by
        intro hek
        exact hnd.1 (hek ▸ (List.mem_map.mpr ⟨(k, v), hl, rfl⟩))
      rw [AssocMap.find_cons, if_neg hk]
      exact ih hnd.2 hl

theorem AssocMap.keysNodup_nil {α : Type} : AssocMap.keysNodup ([] : AssocMap α) := by
  simp [AssocMap.keysNodup]

theorem AssocMap.keysNodup_insert {α : Type} {m : AssocMap α} (h : AssocMap.keysNodup m)
    (k : Nat) (v : α) : AssocMap.keysNodup (m.insert k v) := by
  unfold AssocMap.keysNodup AssocMap.insert
  simp only [List.map_cons, List.nodup_cons]
  constructor
  · intro hk
    rcases List.mem_map.mp hk with ⟨e, he, hek⟩
    have := List.of_mem_filter he
    simp [hek] at this
  · exact List.Nodup.sublist (List.Sublist.map Prod.fst (List.filter_sublist m)) h

theorem AssocMap.find_mapSnd {α β : Type} (f : α → β) (m : AssocMap α) (k : Nat) :
    AssocMap.find (m.map (fun e => (e.1, f e.2))) k = (AssocMap.find m k).map f := by
  induction m with
  | nil => rfl
  | cons e l ih =>
    simp only [List.map_cons]
    rw [AssocMap.find_cons, AssocMap.find_cons]
    by_cases h : e.1 = k <;> simp [h, ih]

theorem AssocMap.keysNodup_mapSnd {α β : Type} (f : α → β) {m : AssocMap α}
    (h : AssocMap.keysNodup m) :
    AssocMap.keysNodup (m.map (fun e => (e.1, f e.2))) := by
  unfold AssocMap.keysNodup at h ⊢
  have heq : (m.map (fun e => (e.1, f e.2))).map Prod.fst = m.map Prod.fst := by
    induction m with
    | nil => rfl
    | cons e l ih => simp_all
  rw [heq]; exact h

/-
  Key-equality bridges.
-/

theorem cmdEq_iff (a b : Cmd) : cmdEq a b = true ↔ keyOf a = keyOf b := by
  cases a; cases b
  simp [cmdEq, keyOf, Prod.ext_iff, and_comm]

theorem pvEq_iff (a b : PValue) : pvEq a b = true ↔
    (a.s_id = b.s_id ∧ a.b_id = b.b_id ∧ keyOf a.command = keyOf b.command) := by
  simp [pvEq, cmdEq_iff, and_assoc]

/-
  C1: acceptor ballot monotonicity.
-/

/-- Supporting lemma: one acceptor step never lowers the stored ballot. -/
theorem acceptorStep_ballot_le (id : Nat) (st : AcceptorStable) (m : AcceptorIn) :
    st.ballot ≤ (acceptorStep id st m).1.ballot := by
  cases m with
  | p1a m => exact le_max_right m.b_id st.ballot
  | p2a cid pv =>
    show st.ballot ≤ (sendP2A id st pv).1.ballot
    unfold sendP2A
    by_cases h : st.ballot ≤ pv.b_id <;> simp [h]

/-- C1: for every sequence of P1A and P2A messages processed by the
acceptor, the stored highest-seen ballot is non-decreasing: each step
leaves it at least as high as before, hence any run from any state does
as well. -/
theorem acceptor_ballot_monotone :
    (∀ (id : Nat) (st : AcceptorStable) (m : AcceptorIn),
      st.ballot ≤ (acceptorStep id st m).1.ballot) ∧
    (∀ (id : Nat) (st : AcceptorStable) (ms : List AcceptorIn),
      st.ballot ≤ (acceptorRun id st ms).ballot) := by
  refine ⟨acceptorStep_ballot_le, ?_⟩
  intro id st ms
  induction ms generalizing st with
  | nil => exact le_refl _
  | cons m rest ih =>
    exact le_trans (acceptorStep_ballot_le id st m) (ih (acceptorStep id st m).1)

/-
  C3: P2A handling.
-/

/-- C3: processing a P2A pvalue with ballot at least the stored one sets
the stored ballot to the incoming ballot and overwrites the accepted
entry of that slot with the pvalue, leaving other slots unchanged; a
lower ballot changes nothing; in every case the reply is a P2B carrying
the acceptor id and the post-update stored ballot. -/
theorem send_p2a_spec (id : Nat) (st : AcceptorStable) (pv : PValue) :
    (st.ballot ≤ pv.b_id →
      (sendP2A id st pv).1.ballot = pv.b_id ∧
      AssocMap.find (sendP2A id st pv).1.accepted pv.s_id = some pv ∧
      ∀ s, s ≠ pv.s_id →
        AssocMap.find (sendP2A id st pv).1.accepted s = AssocMap.find st.accepted s) ∧
    (¬ st.ballot ≤ pv.b_id → (sendP2A id st pv).1 = st) ∧
    (sendP2A id st pv).2.a_id = id ∧
    (sendP2A id st pv).2.b_id = (sendP2A id st pv).1.ballot := by
  by_cases h : st.ballot ≤ pv.b_id
  · refine ⟨fun _ => ⟨?_, ?_, ?_⟩, fun hc => absurd h hc, ?_, ?_⟩
    · simp [sendP2A, h]
    · simp [sendP2A, h, AssocMap.find_insert]
    · intro s hs
      simp [sendP2A, h, AssocMap.find_insert, hs]
    · simp [sendP2A, h]
    · simp [sendP2A, h]
  · refine ⟨fun hc => absurd hc h, fun _ => ?_, ?_, ?_⟩
    · simp [sendP2A, h]
    · simp [sendP2A, h]
    · simp [sendP2A, h]

/-- Witness for C3 at a concrete input: the accept branch applies and
stores the pvalue. -/
theorem send_p2a_spec_witness :
    (AcceptorStable.ballot ⟨⟨0, 0⟩, []⟩ ≤ Ballot.mk 1 0) ∧
    AssocMap.find
      (sendP2A 0 ⟨⟨0, 0⟩, []⟩ ⟨2, ⟨1, 0⟩, ⟨1, 2, 3⟩⟩).1.accepted 2
      = some ⟨2, ⟨1, 0⟩, ⟨1, 2, 3⟩⟩ :=
  ⟨by decide,
    ((send_p2a_spec 0 ⟨⟨0, 0⟩, []⟩ ⟨2, ⟨1, 0⟩, ⟨1, 2, 3⟩⟩).1 (by decide)).2.1⟩

/-
  C8: acceptor startup default.
-/

/-- C8 counterexample: for the acceptor with id 1 and no persisted
record, the initial state is not a ballot whose leader field equals the
own server id with an empty map; the derived default leader field is 0. -/
theorem acceptor_new_counterexample :
    ¬ ((acceptorNew 1 none).ballot = ⟨0, 1⟩ ∧ (acceptorNew 1 none).accepted = []) := by
  decide

/-- C8 amended: with no persisted record the acceptor starts from the
derived default, ballot sequence 0 with leader field 0 regardless of its
own id, and an empty accepted map; with a persisted record it starts
from that record. -/
theorem acceptor_new_default :
    (∀ id : Nat, acceptorNew id none = ⟨⟨0, 0⟩, []⟩) ∧
    (∀ (id : Nat) (st : AcceptorStable), acceptorNew id (some st) = st) :=
  ⟨fun _ => rfl, fun _ _ => rfl⟩

/-
  C9: durable store round trip.
-/

/-- C9: for any encoder and decoder that invert it (the contract of the
serializer), saving a record and then loading returns exactly that
record, whatever bytes the file held before: save truncates the file and
writes the fresh serialization from the start. -/
theorem storage_save_load_roundtrip {σ : Type} (enc : σ → List Nat)
    (dec : List Nat → Option σ) (hinv : ∀ s, dec (enc s) = some s)
    (st : Storage σ) (s : σ) :
    Storage.load dec (Storage.save enc st s) = some s := by
  simp [Storage.load, Storage.save, hinv]

/-- Witness for C9 with a concrete one-byte codec on a file holding
stale bytes. -/
theorem storage_save_load_roundtrip_witness :
    Storage.load (fun l => match l with | [n] => some n | _ => none)
      (Storage.save (fun n => [n]) (⟨[9, 9]⟩ : Storage Nat) 5) = some 5 :=
  storage_save_load_roundtrip (fun n => [n])
    (fun l => match l with | [n] => some n | _ => none)
    (fun _ => rfl) ⟨[9, 9]⟩ 5

/-
  C2: pmax.
-/

/-- Supporting lemma: a binding after one pmax iteration comes from the
accumulator or from the visited pvalue. -/
theorem pmaxStep_sound {acc : AssocMap (Ballot × Cmd)} {pv : PValue} {s : Nat}
    {b : Ballot} {c : Cmd}
    (h : AssocMap.find (pmaxStep acc pv) s = some (b, c)) :
    AssocMap.find acc s = some (b, c) ∨ (pv.s_id = s ∧ pv.b_id = b ∧ pv.command = c) := by
  unfold pmaxStep at h
  split at h
  · split at h
    · rw [AssocMap.find_insert] at h
      by_cases hs : s = pv.s_id
      · rw [if_pos hs] at h
        cases h
        exact Or.inr ⟨hs.symm, rfl, rfl⟩
      · rw [if_neg hs] at h
        exact Or.inl h
    · exact Or.inl h
  · rw [AssocMap.find_insert] at h
    by_cases hs : s = pv.s_id
    · rw [if_pos hs] at h
      cases h
      exact Or.inr ⟨hs.symm, rfl, rfl⟩
    · rw [if_neg hs] at h
      exact Or.inl h

/-- Supporting lemma: one pmax iteration never lowers the recorded
ballot of any slot. -/
theorem pmaxStep_mono {acc : AssocMap (Ballot × Cmd)} (pv : PValue) {s : Nat}
    {bc : Ballot × Cmd} (h : AssocMap.find acc s = some bc) :
    ∃ bc2, AssocMap.find (pmaxStep acc pv) s = some bc2 ∧ bc.1 ≤ bc2.1 := by
  unfold pmaxStep
  split
  next bc0 hf =>
    split
    next hlt =>
      by_cases hs : s = pv.s_id
      · have hbc : bc = bc0 := by
          rw [hs, hf] at h
          cases h
          rfl
        refine ⟨(pv.b_id, pv.command), ?_, ?_⟩
        · rw [AssocMap.find_insert, if_pos hs]
        · exact le_of_lt (hbc ▸ hlt)
      · refine ⟨bc, ?_, le_refl _⟩
        rw [AssocMap.find_insert, if_neg hs]
        exact h
    next hlt => exact ⟨bc, h, le_refl _⟩
  next hf =>
    by_cases hs : s = pv.s_id
    · rw [hs, hf] at h
      cases h
    · refine ⟨bc, ?_, le_refl _⟩
      rw [AssocMap.find_insert, if_neg hs]
      exact h

/-- Supporting lemma: after visiting a pvalue, its slot is bound with a
ballot at least the pvalue's. -/
theorem pmaxStep_self (acc : AssocMap (Ballot × Cmd)) (pv : PValue) {s : Nat}
    (hs : pv.s_id = s) :
    ∃ bc2, AssocMap.find (pmaxStep acc pv) s = some bc2 ∧ pv.b_id ≤ bc2.1 := by
  subst hs
  unfold pmaxStep
  split
  next bc0 hf =>
    split
    next hlt =>
      refine ⟨(pv.b_id, pv.command), ?_, le_refl _⟩
      rw [AssocMap.find_insert, if_pos rfl]
    next hlt => exact ⟨bc0, hf, not_lt.mp hlt⟩
  next hf =>
    refine ⟨(pv.b_id, pv.command), ?_, le_refl _⟩
    rw [AssocMap.find_insert, if_pos rfl]

/-- Supporting lemma: the domain after one pmax iteration is the old
domain plus the visited slot. -/
theorem pmaxStep_domain (acc : AssocMap (Ballot × Cmd)) (pv : PValue) (s : Nat) :
    (AssocMap.find (pmaxStep acc pv) s).isSome = true ↔
      ((AssocMap.find acc s).isSome = true ∨ s = pv.s_id) := by
  constructor
  · intro h
    rcases ho : AssocMap.find (pmaxStep acc pv) s with _ | bc
    · rw [ho] at h; cases h
    · have ho2 : AssocMap.find (pmaxStep acc pv) s = some (bc.1, bc.2) := ho
      rcases pmaxStep_sound ho2 with h1 | ⟨h1, _⟩
      · exact Or.inl (by rw [h1]; rfl)
      · exact Or.inr h1.symm
  · rintro (h | h)
    · rcases ho : AssocMap.find acc s with _ | bc
      · rw [ho] at h; cases h
      · obtain ⟨bc2, h2, _⟩ := pmaxStep_mono pv ho
        rw [h2]; rfl
    · obtain ⟨bc2, h2, _⟩ := pmaxStep_self acc pv h.symm
      rw [h2]; rfl

/-- Supporting lemma: every binding produced by the pmax fold either
comes from the accumulator or from a listed pvalue of that slot, its
ballot dominates every listed pvalue of the slot, and it dominates
whatever the accumulator held for the slot. -/
theorem pmax_fold_sound (pvs : List PValue) :
    ∀ (acc : AssocMap (Ballot × Cmd)) (s : Nat) (b : Ballot) (c : Cmd),
      AssocMap.find (pvs.foldl pmaxStep acc) s = some (b, c) →
      ((AssocMap.find acc s = some (b, c) ∨
          ∃ pv ∈ pvs, pv.s_id = s ∧ pv.b_id = b ∧ pv.command = c) ∧
        (∀ pv ∈ pvs, pv.s_id = s → pv.b_id ≤ b) ∧
        (∀ bc : Ballot × Cmd, AssocMap.find acc s = some bc → bc.1 ≤ b)) := by
  induction pvs with
  | nil =>
    intro acc s b c h
    simp only [List.foldl_nil] at h
    refine ⟨Or.inl h, ?_, ?_⟩
    · intro q hq; cases hq
    · intro bc hbc
      rw [h] at hbc
      cases hbc
      exact le_refl _
  | cons pv rest ih =>
    intro acc s b c h
    rw [List.foldl_cons] at h
    obtain ⟨hmem, hmax, hacc⟩ := ih (pmaxStep acc pv) s b c h
    refine ⟨?_, ?_, ?_⟩
    · rcases hmem with hacc1 | ⟨q, hq, hqs, hqb, hqc⟩
      · rcases pmaxStep_sound hacc1 with h1 | ⟨h1, h2, h3⟩
        · exact Or.inl h1
        · exact Or.inr ⟨pv, List.mem_cons_self pv rest, h1, h2, h3⟩
      · exact Or.inr ⟨q, List.mem_cons_of_mem pv hq, hqs, hqb, hqc⟩
    · intro q hq hqs
      rcases List.mem_cons.mp hq with hq0 | hqrest
      · subst hq0
        obtain ⟨bc2, h2, hle⟩ := pmaxStep_self acc q hqs
        exact le_trans hle (hacc bc2 h2)
      · exact hmax q hqrest hqs
    · intro bc hbc
      obtain ⟨bc2, h2, hle⟩ := pmaxStep_mono pv hbc
      exact le_trans hle (hacc bc2 h2)

/-- Supporting lemma: the domain of the pmax fold is the accumulator
domain plus the listed slots. -/
theorem pmax_fold_domain (pvs : List PValue) :
    ∀ (acc : AssocMap (Ballot × Cmd)) (s : Nat),
      (AssocMap.find (pvs.foldl pmaxStep acc) s).isSome = true ↔
        ((AssocMap.find acc s).isSome = true ∨ ∃ pv ∈ pvs, pv.s_id = s) := by
  induction pvs with
  | nil => intro acc s; simp
  | cons pv rest ih =>
    intro acc s
    rw [List.foldl_cons, ih, pmaxStep_domain]
    constructor
    · rintro ((h1 | h1) | ⟨q, hq, hqs⟩)
      · exact Or.inl h1
      · exact Or.inr ⟨pv, List.mem_cons_self pv rest, h1.symm⟩
      · exact Or.inr ⟨q, List.mem_cons_of_mem pv hq, hqs⟩
    · rintro (h1 | ⟨q, hq, hqs⟩)
      · exact Or.inl (Or.inl h1)
      · rcases List.mem_cons.mp hq with hq0 | hqrest
        · exact Or.inl (Or.inr (hq0 ▸ hqs).symm)
        · exact Or.inr ⟨q, hqrest, hqs⟩

/-- Supporting lemma: the pmax fold keeps keys pairwise distinct. -/
theorem pmax_fold_nodup (pvs : List PValue) :
    ∀ acc : AssocMap (Ballot × Cmd), AssocMap.keysNodup acc →
      AssocMap.keysNodup (pvs.foldl pmaxStep acc) := by
  induction pvs with
  | nil => intro acc h; exact h
  | cons pv rest ih =>
    intro acc h
    rw [List.foldl_cons]
    refine ih _ ?_
    unfold pmaxStep
    cases AssocMap.find acc pv.s_id with
    | some bc =>
      by_cases hlt : bc.1 < pv.b_id
      · simp only [hlt, if_true]
        exact AssocMap.keysNodup_insert h _ _
      · simp only [hlt, if_false]
        exact h
    | none => exact AssocMap.keysNodup_insert h _ _

/-- Supporting lemma: lookups in pmax are the intermediate fold lookups
with the ballots dropped. -/
theorem pmax_find (pvs : List PValue) (s : Nat) :
    AssocMap.find (pmax pvs) s = (AssocMap.find (pmaxMap pvs) s).map Prod.snd :=
  AssocMap.find_mapSnd Prod.snd (pmaxMap pvs) s

/-- Supporting lemma: a pmax binding names the command of a listed
pvalue of that slot whose ballot dominates the slot. -/
theorem pmax_sound {pvs : List PValue} {s : Nat} {c : Cmd}
    (h : AssocMap.find (pmax pvs) s = some c) :
    ∃ pv ∈ pvs, pv.s_id = s ∧ pv.command = c ∧
      ∀ qv ∈ pvs, qv.s_id = s → qv.b_id ≤ pv.b_id := by
  rw [pmax_find] at h
  cases hf : AssocMap.find (pmaxMap pvs) s with
  | none => rw [hf] at h; cases h
  | some bc =>
    rw [hf] at h
    have hc : bc.2 = c := by
      cases bc
      cases h
      rfl
    have hf2 : AssocMap.find (pmaxMap pvs) s = some (bc.1, bc.2) := hf
    obtain ⟨hmem, hmax, _⟩ := pmax_fold_sound pvs [] s bc.1 bc.2 hf2
    rcases hmem with hnil | ⟨pv, hpv, hps, hpb, hpc⟩
    · cases hnil
    · exact ⟨pv, hpv, hps, by rw [hpc, hc], fun qv hqv hqs => hpb ▸ hmax qv hqv hqs⟩

/-- C2: the domain of pmax is exactly the slots of the collection; each
slot is mapped to the command of a collected pvalue for that slot whose
ballot dominates every collected pvalue of the slot; and whenever no two
pvalues share a slot and ballot with different commands, pmax depends
only on the multiset of pvalues, not on their order. -/
theorem pmax_spec (pvs : List PValue) :
    (∀ s, (AssocMap.find (pmax pvs) s).isSome = true ↔ ∃ pv ∈ pvs, pv.s_id = s) ∧
    (∀ s c, AssocMap.find (pmax pvs) s = some c →
      ∃ pv ∈ pvs, pv.s_id = s ∧ pv.command = c ∧
        ∀ qv ∈ pvs, qv.s_id = s → qv.b_id ≤ pv.b_id) ∧
    (∀ pvs2, NoConflict pvs → pvs.Perm pvs2 →
      ∀ s, AssocMap.find (pmax pvs) s = AssocMap.find (pmax pvs2) s) := by
  have hsome : ∀ l : List PValue, ∀ s : Nat,
      (AssocMap.find (pmax l) s).isSome = (AssocMap.find (pmaxMap l) s).isSome := by
    intro l s
    rw [pmax_find]
    cases AssocMap.find (pmaxMap l) s <;> rfl
  refine ⟨?_, fun s c h => pmax_sound h, ?_⟩
  · intro s
    rw [hsome]
    exact (pmax_fold_domain pvs [] s).trans (by simp [AssocMap.find_nil])
  · intro pvs2 hnc hperm s
    have hdom : (AssocMap.find (pmax pvs) s).isSome = (AssocMap.find (pmax pvs2) s).isSome := by
      rw [hsome, hsome]
      unfold pmaxMap
      rw [Bool.eq_iff_iff, pmax_fold_domain pvs [] s, pmax_fold_domain pvs2 [] s]
      simp only [AssocMap.find_nil, Option.isSome_none, Bool.false_eq_true, false_or]
      constructor
      · rintro ⟨pv, hpv, hps⟩; exact ⟨pv, hperm.mem_iff.mp hpv, hps⟩
      · rintro ⟨pv, hpv, hps⟩; exact ⟨pv, hperm.mem_iff.mpr hpv, hps⟩
    cases h1 : AssocMap.find (pmax pvs) s with
    | none =>
      rw [h1] at hdom
      cases h2 : AssocMap.find (pmax pvs2) s with
      | none => rfl
      | some c2 => rw [h2] at hdom; simp at hdom
    | some c1 =>
      rw [h1] at hdom
      cases h2 : AssocMap.find (pmax pvs2) s with
      | none => rw [h2] at hdom; simp at hdom
      | some c2 =>
        obtain ⟨pv1, hpv1, hs1, hc1, hmax1⟩ := pmax_sound h1
        obtain ⟨pv2, hpv2, hs2, hc2, hmax2⟩ := pmax_sound h2
        have hpv2mem : pv2 ∈ pvs := hperm.mem_iff.mpr hpv2
        have hpv1mem2 : pv1 ∈ pvs2 := hperm.mem_iff.mp hpv1
        have hb12 : pv1.b_id = pv2.b_id := by
          have h12 : pv1.b_id ≤ pv2.b_id := hmax2 pv1 hpv1mem2 hs1
          have h21 : pv2.b_id ≤ pv1.b_id := hmax1 pv2 hpv2mem hs2
          exact le_antisymm h12 h21
        have hcmd : pv1.command = pv2.command :=
          hnc pv1 hpv1 pv2 hpv2mem (hs1.trans hs2.symm) hb12
        have hcc : c1 = c2 := by rw [← hc1, ← hc2, hcmd]
        rw [hcc]

/-- Witness for C2 determinism on a concrete conflict-free pair of
permuted pvalue lists. -/
theorem pmax_spec_witness :
    NoConflict [⟨0, ⟨1, 0⟩, ⟨1, 1, 1⟩⟩, ⟨0, ⟨2, 1⟩, ⟨2, 2, 2⟩⟩] ∧
    List.Perm [⟨0, ⟨1, 0⟩, ⟨1, 1, 1⟩⟩, ⟨0, ⟨2, 1⟩, ⟨2, 2, 2⟩⟩]
      [(⟨0, ⟨2, 1⟩, ⟨2, 2, 2⟩⟩ : PValue), ⟨0, ⟨1, 0⟩, ⟨1, 1, 1⟩⟩] ∧
    AssocMap.find (pmax [⟨0, ⟨1, 0⟩, ⟨1, 1, 1⟩⟩, ⟨0, ⟨2, 1⟩, ⟨2, 2, 2⟩⟩]) 0 =
      AssocMap.find (pmax [⟨0, ⟨2, 1⟩, ⟨2, 2, 2⟩⟩, ⟨0, ⟨1, 0⟩, ⟨1, 1, 1⟩⟩]) 0 :=
  ⟨by decide, by decide,
    (pmax_spec [⟨0, ⟨1, 0⟩, ⟨1, 1, 1⟩⟩, ⟨0, ⟨2, 1⟩, ⟨2, 2, 2⟩⟩]).2.2
      [⟨0, ⟨2, 1⟩, ⟨2, 2, 2⟩⟩, ⟨0, ⟨1, 0⟩, ⟨1, 1, 1⟩⟩] (by decide) (by decide) 0⟩

/-
  C5: leader Adopt handling.
-/

/-- Supporting lemma: looking up the merge loop of respond_adopt is the
pmax lookup when bound, and the old proposals lookup otherwise. -/
theorem merge_fold_find (old : AssocMap Cmd) :
    ∀ (base : AssocMap Cmd) (s : Nat),
      AssocMap.find
        (old.foldl (fun m e => if (AssocMap.find m e.1).isSome then m else m.insert e.1 e.2) base) s
      = (match AssocMap.find base s with
          | some v => some v
          | none => AssocMap.find old s) := by
  induction old with
  | nil =>
    intro base s
    simp only [List.foldl_nil, AssocMap.find_nil]
    cases AssocMap.find base s <;> rfl
  | cons e rest ih =>
    intro base s
    rw [List.foldl_cons, ih, AssocMap.find_cons]
    by_cases hs : e.1 = s
    · subst hs
      cases hb : AssocMap.find base e.1 with
      | some v => simp [hb]
      | none => simp [hb, AssocMap.find_insert]
    · have hse : ¬ s = e.1 := fun hc => hs hc.symm
      cases hb : AssocMap.find base e.1 with
      | some v =>
        simp only [Option.isSome_some, if_true, if_neg hs]
      | none =>
        simp only [Option.isSome_none, Bool.false_eq_true, if_false, if_neg hs,
          AssocMap.find_insert, if_neg hse]

/-- Supporting lemma: the merge loop keeps keys pairwise distinct when
the base map has pairwise distinct keys. -/
theorem merge_fold_nodup (old : AssocMap Cmd) :
    ∀ base : AssocMap Cmd, AssocMap.keysNodup base →
      AssocMap.keysNodup
        (old.foldl (fun m e => if (AssocMap.find m e.1).isSome then m else m.insert e.1 e.2) base) := by
  induction old with
  | nil => intro base h; exact h
  | cons e rest ih =>
    intro base h
    rw [List.foldl_cons]
    refine ih _ ?_
    by_cases hb : (AssocMap.find base e.1).isSome = true
    · simp only [hb, if_true]; exact h
    · simp only [hb, if_false]
      exact AssocMap.keysNodup_insert h _ _

/-- Supporting lemma: pmax has pairwise distinct keys. -/
theorem pmax_nodup (pvs : List PValue) : AssocMap.keysNodup (pmax pvs) :=
  AssocMap.keysNodup_mapSnd _ (pmax_fold_nodup pvs [] AssocMap.keysNodup_nil)

/-- C5: after Adopt(pvalues), the proposals map binds every slot of
pmax(pvalues) to its pmax command and keeps the old binding of every
other slot; the leader becomes active with ballot and decided slot
unchanged; and a commander is spawned exactly for the merged bindings
whose slot is beyond the tracked decided slot (all of them when none is
tracked). -/
theorem respond_adopt_spec (ld : LeaderSt) (pvs : List PValue) :
    (∀ s c, AssocMap.find (pmax pvs) s = some c →
      AssocMap.find (respondAdopt ld pvs).1.stable.proposals s = some c) ∧
    (∀ s, AssocMap.find (pmax pvs) s = none →
      AssocMap.find (respondAdopt ld pvs).1.stable.proposals s
        = AssocMap.find ld.stable.proposals s) ∧
    (respondAdopt ld pvs).1.active = true ∧
    (respondAdopt ld pvs).1.stable.ballot = ld.stable.ballot ∧
    (respondAdopt ld pvs).1.stable.decided = ld.stable.decided ∧
    (∀ s c, (s, c) ∈ (respondAdopt ld pvs).2 ↔
      (AssocMap.find (respondAdopt ld pvs).1.stable.proposals s = some c ∧
        ∀ d, ld.stable.decided = some d → d < s)) := by
  have hfind : ∀ s, AssocMap.find (respondAdopt ld pvs).1.stable.proposals s
      = (match AssocMap.find (pmax pvs) s with
          | some v => some v
          | none => AssocMap.find ld.stable.proposals s) :=
    fun s => merge_fold_find ld.stable.proposals (pmax pvs) s
  have hnodup : AssocMap.keysNodup (respondAdopt ld pvs).1.stable.proposals :=
    merge_fold_nodup ld.stable.proposals (pmax pvs) (pmax_nodup pvs)
  refine ⟨?_, ?_, rfl, rfl, rfl, ?_⟩
  · intro s c h
    rw [hfind s, h]
  · intro s h
    rw [hfind s, h]
  · intro s c
    show (s, c) ∈ List.filter _ (respondAdopt ld pvs).1.stable.proposals ↔ _
    rw [List.mem_filter]
    constructor
    · rintro ⟨hmem, hp⟩
      refine ⟨AssocMap.mem_find hnodup hmem, ?_⟩
      intro d hd
      rw [hd] at hp
      simpa using hp
    · rintro ⟨hmem, hp⟩
      refine ⟨AssocMap.find_mem hmem, ?_⟩
      cases hd : ld.stable.decided with
      | none => rfl
      | some d => simpa using hp d hd

/-- Witness for C5 at a concrete leader state and pvalue list: the pmax
binding wins, the old binding of a slot outside pmax survives, and a
commander is spawned for the slot beyond the decided slot. -/
theorem respond_adopt_spec_witness :
    (AssocMap.find (pmax [⟨3, ⟨1, 0⟩, ⟨1, 1, 1⟩⟩]) 3 = some ⟨1, 1, 1⟩) ∧
    AssocMap.find
      (respondAdopt ⟨⟨⟨1, 0⟩, [(2, ⟨9, 9, 9⟩)], some 2⟩, false⟩ [⟨3, ⟨1, 0⟩, ⟨1, 1, 1⟩⟩]).1.stable.proposals
      3 = some ⟨1, 1, 1⟩ :=
  ⟨by decide,
    (respond_adopt_spec ⟨⟨⟨1, 0⟩, [(2, ⟨9, 9, 9⟩)], some 2⟩, false⟩ [⟨3, ⟨1, 0⟩, ⟨1, 1, 1⟩⟩]).1
      3 ⟨1, 1, 1⟩ (by decide)⟩

/-
  C4: scout P1B handling.
-/

/-- Supporting lemma: the derived PValue equality is symmetric. -/
theorem pvEq_symm {a b : PValue} (h : pvEq a b = true) : pvEq b a = true := by
  rw [pvEq_iff] at h ⊢
  exact ⟨h.1.symm, h.2.1.symm, h.2.2.symm⟩

/-- Supporting lemma: the derived PValue equality is transitive. -/
theorem pvEq_trans {a b c : PValue} (h1 : pvEq a b = true) (h2 : pvEq b c = true) :
    pvEq a c = true := by
  rw [pvEq_iff] at h1 h2 ⊢
  exact ⟨h1.1.trans h2.1, h1.2.1.trans h2.2.1, h1.2.2.trans h2.2.2⟩

/-- Supporting lemma: membership after a set insertion. -/
theorem memPV_insertPV (l : List PValue) (q pv : PValue) :
    memPV pv (insertPV l q) ↔ (memPV pv l ∨ pvEq q pv = true) := by
  unfold insertPV
  by_cases hany : l.any (fun x => pvEq x q) = true
  · rw [if_pos hany]
    constructor
    · exact Or.inl
    · rintro (h | h)
      · exact h
      · rcases List.any_eq_true.mp hany with ⟨x, hx, hxq⟩
        exact ⟨x, hx, pvEq_trans hxq h⟩
  · rw [if_neg hany]
    constructor
    · rintro ⟨x, hx, hxp⟩
      rcases List.mem_cons.mp hx with hq | hl
      · exact Or.inr (hq ▸ hxp)
      · exact Or.inl ⟨x, hl, hxp⟩
    · rintro (⟨x, hx, hxp⟩ | h)
      · exact ⟨x, List.mem_cons_of_mem q hx, hxp⟩
      · exact ⟨q, List.mem_cons_self q l, h⟩

/-- Supporting lemma: the HashSet extend of the scout unions membership. -/
theorem memPV_unionPV (new : List PValue) :
    ∀ (old : List PValue) (pv : PValue),
      memPV pv (unionPV old new) ↔ (memPV pv old ∨ memPV pv new) := by
  induction new with
  | nil =>
    intro old pv
    unfold unionPV
    simp [memPV]
  | cons q rest ih =>
    intro old pv
    show memPV pv (unionPV (insertPV old q) rest) ↔ _
    rw [ih, memPV_insertPV]
    constructor
    · rintro ((h | h) | h)
      · exact Or.inl h
      · exact Or.inr ⟨q, List.mem_cons_self q rest, h⟩
      · rcases h with ⟨x, hx, hxp⟩
        exact Or.inr ⟨x, List.mem_cons_of_mem q hx, hxp⟩
    · rintro (h | ⟨x, hx, hxp⟩)
      · exact Or.inl (Or.inl h)
      · rcases List.mem_cons.mp hx with hq | hr
        · exact Or.inl (Or.inr (hq ▸ hxp))
        · exact Or.inr ⟨x, hr, hxp⟩

/-- C4 counterexample: with cluster size 4 the claimed threshold is
reached after two distinct replies (2 = floor((4-1)/2) + 1), yet the
scout does not adopt: the code requires the waiting set to shrink to at
most floor((4-1)/2) = 1, that is three replies. -/
theorem scout_majority_counterexample :
    ((scoutStep (scoutStep (scoutNew ⟨1, 0⟩ 4 none) ⟨0, ⟨1, 0⟩, []⟩).1 ⟨1, ⟨1, 0⟩, []⟩).2
      = ScoutOut.ignore) ∧
    (4 - (scoutStep (scoutStep (scoutNew ⟨1, 0⟩ 4 none) ⟨0, ⟨1, 0⟩, []⟩).1
        ⟨1, ⟨1, 0⟩, []⟩).1.waiting.card
      = (4 - 1) / 2 + 1) := by
  constructor
  · rfl
  · rfl

/-- C4 amended: on a P1B whose ballot equals its own, the scout unions
the pvalues into the collected set and removes the sender from the
waiting set, and it sends Adopt with the collected pvalues exactly when
the count of distinct acceptors that have replied reaches
N - floor((N-1)/2), a strict majority of N, which exceeds
floor((N-1)/2) + 1 when N is even. -/
theorem scout_step_spec (N : Nat) (sc : ScoutState) (p1b : P1B)
    (hmin : sc.minority = (N - 1) / 2)
    (hsub : sc.waiting ⊆ Finset.range N)
    (hb : p1b.b_id = sc.ballot) :
    (scoutStep sc p1b).1.waiting = sc.waiting.erase p1b.a_id ∧
    (∀ pv, memPV pv (scoutStep sc p1b).1.pvalues ↔
      (memPV pv sc.pvalues ∨ memPV pv p1b.pvalues)) ∧
    ((scoutStep sc p1b).2 = ScoutOut.adopt (scoutStep sc p1b).1.pvalues ∨
      (scoutStep sc p1b).2 = ScoutOut.ignore) ∧
    ((scoutStep sc p1b).2 = ScoutOut.adopt (scoutStep sc p1b).1.pvalues ↔
      N - (N - 1) / 2 ≤ N - (sc.waiting.erase p1b.a_id).card) := by
  have hcard : (sc.waiting.erase p1b.a_id).card ≤ N := by
    calc (sc.waiting.erase p1b.a_id).card
        ≤ sc.waiting.card := Finset.card_le_card (Finset.erase_subset _ _)
      _ ≤ (Finset.range N).card := Finset.card_le_card hsub
      _ = N := Finset.card_range N
  unfold scoutStep
  rw [if_pos hb]
  by_cases hth : (sc.waiting.erase p1b.a_id).card ≤ sc.minority
  · rw [if_pos hth]
    refine ⟨rfl, fun pv => memPV_unionPV p1b.pvalues sc.pvalues pv, Or.inl rfl, ?_⟩
    rw [hmin] at hth
    constructor
    · intro _; omega
    · intro _; rfl
  · rw [if_neg hth]
    refine ⟨rfl, fun pv => memPV_unionPV p1b.pvalues sc.pvalues pv, Or.inr rfl, ?_⟩
    rw [hmin] at hth
    constructor
    · intro h; cases h
    · intro h; omega

/-- Witness for C4 at cluster size 3: the second distinct reply is a
strict majority and the scout adopts. -/
theorem scout_step_spec_witness :
    ((scoutNew ⟨1, 0⟩ 3 none).minority = (3 - 1) / 2) ∧
    ((scoutStep (scoutStep (scoutNew ⟨1, 0⟩ 3 none) ⟨0, ⟨1, 0⟩, []⟩).1 ⟨1, ⟨1, 0⟩, []⟩).2
        = ScoutOut.adopt
            (scoutStep (scoutStep (scoutNew ⟨1, 0⟩ 3 none) ⟨0, ⟨1, 0⟩, []⟩).1
              ⟨1, ⟨1, 0⟩, []⟩).1.pvalues ↔
      3 - (3 - 1) / 2 ≤
        3 - ((scoutStep (scoutNew ⟨1, 0⟩ 3 none) ⟨0, ⟨1, 0⟩, []⟩).1.waiting.erase 1).card) :=
  ⟨rfl,
    (scout_step_spec 3 (scoutStep (scoutNew ⟨1, 0⟩ 3 none) ⟨0, ⟨1, 0⟩, []⟩).1
      ⟨1, ⟨1, 0⟩, []⟩ (by decide) (by decide) (by decide)).2.2.2⟩

/-
  C6: acceptor per-slot single value with maximal stored ballot.
-/

/-- Supporting lemma: processing a P1A preserves the acceptor invariant
(the accepted map and the stored log are untouched and the ballot can
only rise). -/
theorem acceptorInvariant_p1a {st : AcceptorStable} {log : List PValue}
    (h : AcceptorInvariant st log) (id : Nat) (m : P1A) :
    AcceptorInvariant (sendP1A id st m).1 log := by
  obtain ⟨hnd, hent, hdom⟩ := h
  refine ⟨hnd, ?_, hdom⟩
  intro s pv hf
  obtain ⟨h1, h2, h3, h4⟩ := hent s pv hf
  exact ⟨h1, h2, le_trans h3 (le_max_right m.b_id st.ballot), h4⟩

/-- Supporting lemma: processing a P2A preserves the acceptor invariant,
extending the stored log when the pvalue is accepted. -/
theorem acceptorInvariant_p2a {st : AcceptorStable} {log : List PValue}
    (h : AcceptorInvariant st log) (id : Nat) (pv : PValue) :
    AcceptorInvariant (sendP2A id st pv).1
      (if st.ballot ≤ pv.b_id then log ++ [pv] else log) := by
  obtain ⟨hnd, hent, hdom⟩ := h
  by_cases hb : st.ballot ≤ pv.b_id
  · rw [if_pos hb]
    have hst : (sendP2A id st pv).1 =
        { st with ballot := pv.b_id, accepted := st.accepted.insert pv.s_id pv } := by
      unfold sendP2A
      rw [if_pos hb]
    rw [hst]
    refine ⟨AssocMap.keysNodup_insert hnd _ _, ?_, ?_⟩
    · intro s qv hf
      rw [AssocMap.find_insert] at hf
      by_cases hs : s = pv.s_id
      · rw [if_pos hs] at hf
        cases hf
        refine ⟨hs.symm, List.mem_append_right log (List.mem_singleton.mpr rfl),
          le_refl _, ?_⟩
        intro rv hrv hrs
        rcases List.mem_append.mp hrv with hrl | hrp
        · obtain hsome := hdom rv hrl
          cases ho : AssocMap.find st.accepted rv.s_id with
          | none => rw [ho] at hsome; cases hsome
          | some ev =>
            obtain ⟨_, _, he3, he4⟩ := hent rv.s_id ev ho
            exact le_trans (he4 rv hrl rfl) (le_trans he3 hb)
        · have : rv = pv := List.mem_singleton.mp hrp
          rw [this]
      · rw [if_neg hs] at hf
        obtain ⟨h1, h2, h3, h4⟩ := hent s qv hf
        refine ⟨h1, List.mem_append_left _ h2, le_trans h3 hb, ?_⟩
        intro rv hrv hrs
        rcases List.mem_append.mp hrv with hrl | hrp
        · exact h4 rv hrl hrs
        · have hrpv : rv = pv := List.mem_singleton.mp hrp
          exact absurd (hrpv ▸ hrs).symm hs
    · intro qv hqv
      rcases List.mem_append.mp hqv with hql | hqp
      · obtain hsome := hdom qv hql
        rw [AssocMap.find_insert]
        by_cases hs : qv.s_id = pv.s_id
        · rw [if_pos hs]; rfl
        · rw [if_neg hs]; exact hsome
      · have : qv = pv := List.mem_singleton.mp hqp
        rw [this, AssocMap.find_insert, if_pos rfl]
        rfl
  · rw [if_neg hb]
    have hst : (sendP2A id st pv).1 = st := by
      unfold sendP2A
      rw [if_neg hb]
    rw [hst]
    exact ⟨hnd, hent, hdom⟩

/-- Supporting lemma: the acceptor invariant holds along any run of the
logging semantics. -/
theorem acceptorInvariant_run (id : Nat) (trace : List AcceptorIn) :
    ∀ (st : AcceptorStable) (log : List PValue), AcceptorInvariant st log →
      AcceptorInvariant (acceptorRunLog id st log trace).1 (acceptorRunLog id st log trace).2 := by
  induction trace with
  | nil => intro st log h; exact h
  | cons m rest ih =>
    intro st log h
    cases m with
    | p1a m1 => exact ih _ _ (acceptorInvariant_p1a h id m1)
    | p2a cid pv => exact ih _ _ (acceptorInvariant_p2a h id pv)

/-- C6: after any sequence of P1A and P2A messages from the fresh
default state, each slot of the accepted map holds at most one pvalue,
that pvalue is one of the P2A pvalues the acceptor stored for the slot,
and its ballot is the highest among all pvalues stored for the slot. -/
theorem acceptor_accepted_spec (id : Nat) (trace : List AcceptorIn) :
    AssocMap.keysNodup (acceptorRunLog id acceptorDefault [] trace).1.accepted ∧
    (∀ s pv,
      AssocMap.find (acceptorRunLog id acceptorDefault [] trace).1.accepted s = some pv →
      pv.s_id = s ∧ pv ∈ (acceptorRunLog id acceptorDefault [] trace).2 ∧
        ∀ qv ∈ (acceptorRunLog id acceptorDefault [] trace).2,
          qv.s_id = s → qv.b_id ≤ pv.b_id) := by
  have hinit : AcceptorInvariant acceptorDefault [] := by
    refine ⟨AssocMap.keysNodup_nil, ?_, ?_⟩
    · intro s pv hf
      simp [acceptorDefault, AssocMap.find] at hf
    · intro qv hqv
      cases hqv
  obtain ⟨hnd, hent, _⟩ := acceptorInvariant_run id trace acceptorDefault [] hinit
  refine ⟨hnd, ?_⟩
  intro s pv hf
  obtain ⟨h1, h2, _, h4⟩ := hent s pv hf
  exact ⟨h1, h2, h4⟩

/-- Witness for C6 on a concrete trace: a stored pvalue of slot 2 is
found with the dominating ballot after two P2As for the slot. -/
theorem acceptor_accepted_spec_witness :
    (AssocMap.find
      (acceptorRunLog 0 acceptorDefault []
        [AcceptorIn.p2a ⟨⟨1, 0⟩, 2⟩ ⟨2, ⟨1, 0⟩, ⟨1, 1, 1⟩⟩,
         AcceptorIn.p2a ⟨⟨2, 1⟩, 2⟩ ⟨2, ⟨2, 1⟩, ⟨2, 2, 2⟩⟩]).1.accepted 2
      = some ⟨2, ⟨2, 1⟩, ⟨2, 2, 2⟩⟩) ∧
    (⟨2, ⟨2, 1⟩, ⟨2, 2, 2⟩⟩ : PValue).s_id = 2 :=
  ⟨by decide,
    ((acceptor_accepted_spec 0
        [AcceptorIn.p2a ⟨⟨1, 0⟩, 2⟩ ⟨2, ⟨1, 0⟩, ⟨1, 1, 1⟩⟩,
         AcceptorIn.p2a ⟨⟨2, 1⟩, 2⟩ ⟨2, ⟨2, 1⟩, ⟨2, 2, 2⟩⟩]).2 2
      ⟨2, ⟨2, 1⟩, ⟨2, 2, 2⟩⟩ (by decide)).1⟩

/-
  C7: at-most-once execution at the replica.
-/

/-- Supporting lemma: the duplicate test of perform succeeds exactly
when some decided slot strictly below the cursor binds a command with
the same key. -/
theorem perform_guard_iff (m : AssocMap Cmd) (c : Cmd) (n : Nat) :
    (m.any (fun e => cmdEq e.2 c && decide (e.1 < n)) = true) ↔
      ∃ e ∈ m, e.1 < n ∧ keyOf e.2 = keyOf c := by
  rw [List.any_eq_true]
  constructor
  · rintro ⟨e, he, hb⟩
    rw [Bool.and_eq_true, cmdEq_iff, decide_eq_true_eq] at hb
    exact ⟨e, he, hb.2, hb.1⟩
  · rintro ⟨e, he, h1, h2⟩
    exact ⟨e, he, by rw [Bool.and_eq_true, cmdEq_iff, decide_eq_true_eq]; exact ⟨h2, h1⟩⟩

/-- Supporting lemma: propose leaves the decision map, the decision
cursor and the execution log unchanged. -/
theorem propose_frame {σ : Type} (r : Replica σ) (c : Cmd) :
    (propose r c).stable.decisions = r.stable.decisions ∧
    (propose r c).stable.decision_slot = r.stable.decision_slot ∧
    (propose r c).execLog = r.execLog := by
  unfold propose
  by_cases h : r.stable.decisions.any (fun e => cmdEq e.2 c) = true <;> simp [h]

/-- Supporting lemma: the re-propose step leaves the decision map, the
decision cursor and the execution log unchanged. -/
theorem reproposeStep_frame {σ : Type} (r : Replica σ) (c1 : Cmd) :
    (reproposeStep r c1).stable.decisions = r.stable.decisions ∧
    (reproposeStep r c1).stable.decision_slot = r.stable.decision_slot ∧
    (reproposeStep r c1).execLog = r.execLog := by
  unfold reproposeStep
  cases AssocMap.find r.stable.proposals r.stable.decision_slot with
  | none => exact ⟨rfl, rfl, rfl⟩
  | some c2 =>
    show (if cmdEq c1 c2 then r else propose r c2).stable.decisions = r.stable.decisions ∧
      (if cmdEq c1 c2 then r else propose r c2).stable.decision_slot
        = r.stable.decision_slot ∧
      (if cmdEq c1 c2 then r else propose r c2).execLog = r.execLog
    cases hcc : cmdEq c1 c2 with
    | true => exact ⟨rfl, rfl, rfl⟩
    | false => exact propose_frame r c2

/-- Supporting lemma: the key invariant only depends on the execution
log, the decision cursor and the decision map. -/
theorem keyInv_congr {σ : Type} {K : Nat → Nat × Nat} {r r2 : Replica σ}
    (h : KeyInv K r) (hd : r2.stable.decisions = r.stable.decisions)
    (hs : r2.stable.decision_slot = r.stable.decision_slot)
    (he : r2.execLog = r.execLog) : KeyInv K r2 := by
  unfold KeyInv at h ⊢
  rw [hd, hs, he]
  exact h

/-- Supporting lemma: perform preserves the key invariant whenever the
cursor slot is currently decided with a command of the same key, which
holds at its unique call site. -/
theorem keyInv_perform {σ : Type} {K : Nat → Nat × Nat} {r : Replica σ}
    (execF : σ → Nat → Cmd → σ × Option Nat) (c : Cmd) (hinv : KeyInv K r)
    (hc : ∃ c0, AssocMap.find r.stable.decisions r.stable.decision_slot = some c0 ∧
      keyOf c0 = keyOf c) :
    KeyInv K (perform execF r c) := by
  obtain ⟨hnodup, hexec, hK⟩ := hinv
  obtain ⟨c0, hc0, hkc0⟩ := hc
  unfold perform
  by_cases hg : r.stable.decisions.any
      (fun e => cmdEq e.2 c && decide (e.1 < r.stable.decision_slot)) = true
  · rw [if_pos hg]
    refine ⟨hnodup, ?_, hK⟩
    intro e he
    obtain ⟨h1, h2⟩ := hexec e he
    exact ⟨Nat.lt_succ_of_lt h1, h2⟩
  · rw [if_neg hg]
    refine ⟨?_, ?_, hK⟩
    · rw [List.map_append, List.nodup_append]
      refine ⟨hnodup, List.nodup_singleton _, ?_⟩
      intro k hk hk2
      simp only [List.map_cons, List.map_nil, List.mem_singleton] at hk2
      rcases List.mem_map.mp hk with ⟨e, he, hke⟩
      obtain ⟨h1, ce, hce, hkce⟩ := hexec e he
      refine hg (perform_guard_iff _ c _ |>.mpr ?_)
      refine ⟨(e.1, ce), AssocMap.find_mem hce, h1, ?_⟩
      rw [hkce, hke, hk2]
    · intro e he
      rcases List.mem_append.mp he with hel | hep
      · obtain ⟨h1, h2⟩ := hexec e hel
        exact ⟨Nat.lt_succ_of_lt h1, h2⟩
      · have : e = (r.stable.decision_slot, c) := List.mem_singleton.mp hep
        subst this
        exact ⟨Nat.lt_succ_self _, c0, hc0, hkc0⟩

/-- Supporting lemma: the decision loop preserves the key invariant for
any fuel. -/
theorem keyInv_decisionLoop {σ : Type} (execF : σ → Nat → Cmd → σ × Option Nat)
    (K : Nat → Nat × Nat) :
    ∀ (fuel : Nat) (r : Replica σ), KeyInv K r → KeyInv K (decisionLoop execF fuel r) := by
  intro fuel
  induction fuel with
  | zero => intro r h; exact h
  | succ fuel ih =>
    intro r h
    unfold decisionLoop
    cases hf : AssocMap.find r.stable.decisions r.stable.decision_slot with
    | none => exact h
    | some c1 =>
      apply ih
      obtain ⟨hd, hs, he⟩ := reproposeStep_frame r c1
      refine keyInv_perform execF c1 (keyInv_congr h hd hs he) ?_
      exact ⟨c1, by rw [hd, hs]; exact hf, rfl⟩

/-- Supporting lemma: respond_decision preserves the key invariant when
the recorded decision agrees with the key assignment. -/
theorem keyInv_respondDecision {σ : Type} (execF : σ → Nat → Cmd → σ × Option Nat)
    {K : Nat → Nat × Nat} {r : Replica σ} (p : Proposal)
    (hinv : KeyInv K r) (hp : keyOf p.command = K p.s_id) :
    KeyInv K (respondDecision execF r p) := by
  unfold respondDecision
  apply keyInv_decisionLoop
  obtain ⟨hnodup, hexec, hK⟩ := hinv
  refine ⟨hnodup, ?_, ?_⟩
  · intro e he
    obtain ⟨h1, c2, hc2, hk⟩ := hexec e he
    refine ⟨h1, ?_⟩
    by_cases hs : e.1 = p.s_id
    · refine ⟨p.command, ?_, ?_⟩
      · show AssocMap.find (AssocMap.insert _ p.s_id p.command) e.1 = some p.command
        rw [AssocMap.find_insert, if_pos hs]
      · rw [hp, ← hs, ← hK e.1 c2 hc2, hk]
    · refine ⟨c2, ?_, hk⟩
      show AssocMap.find (AssocMap.insert _ p.s_id p.command) e.1 = some c2
      rw [AssocMap.find_insert, if_neg hs]
      exact hc2
  · intro s c hf
    rw [show (({ r with stable := { r.stable with
        decisions := r.stable.decisions.insert p.s_id p.command } } : Replica σ)).stable.decisions
        = r.stable.decisions.insert p.s_id p.command from rfl,
      AssocMap.find_insert] at hf
    by_cases hs : s = p.s_id
    · rw [if_pos hs] at hf
      cases hf
      rw [hs]
      exact hp
    · rw [if_neg hs] at hf
      exact hK s c hf

/-- Supporting lemma: the key invariant holds after any run whose
decision messages agree with the key assignment. -/
theorem keyInv_run {σ : Type} (execF : σ → Nat → Cmd → σ × Option Nat)
    (K : Nat → Nat × Nat) (msgs : List ReplicaIn) :
    ∀ r : Replica σ, KeyInv K r →
      (∀ p, ReplicaIn.decision p ∈ msgs → keyOf p.command = K p.s_id) →
      KeyInv K (msgs.foldl (replicaStep execF) r) := by
  induction msgs with
  | nil => intro r h _; exact h
  | cons m rest ih =>
    intro r h hcompat
    rw [List.foldl_cons]
    refine ih _ ?_ (fun p hp => hcompat p (List.mem_cons_of_mem m hp))
    cases m with
    | request c =>
      obtain ⟨hd, hs, he⟩ := propose_frame r c
      exact keyInv_congr h hd hs he
    | decision p =>
      exact keyInv_respondDecision execF p h
        (hcompat p (List.mem_cons_self _ _))

/-- C7: perform skips execution and only advances the cursor when an
earlier decided slot holds a command with the same key, and otherwise
invokes the state machine once at the cursor slot, routes the response
to the originating client, logs the invocation and advances the cursor;
consequently, whenever the decisions delivered to a replica assign a
single key per slot, the keys of the executed commands are pairwise
distinct: each command key is executed at most once. -/
theorem perform_at_most_once :
    (∀ (σ : Type) (execF : σ → Nat → Cmd → σ × Option Nat) (r : Replica σ) (c : Cmd),
      ((∃ e ∈ r.stable.decisions, e.1 < r.stable.decision_slot ∧ keyOf e.2 = keyOf c) →
        perform execF r c =
          { r with stable := { r.stable with decision_slot := r.stable.decision_slot + 1 } }) ∧
      (¬ (∃ e ∈ r.stable.decisions, e.1 < r.stable.decision_slot ∧ keyOf e.2 = keyOf c) →
        perform execF r c =
          { r with
              stable := { r.stable with decision_slot := r.stable.decision_slot + 1 }
              state := (execF r.state r.stable.decision_slot c).1
              execLog := r.execLog ++ [(r.stable.decision_slot, c)]
              sent := r.sent ++ (match (execF r.state r.stable.decision_slot c).2 with
                | some out => [(c.client_id, out)]
                | none => []) })) ∧
    (∀ (σ : Type) (execF : σ → Nat → Cmd → σ × Option Nat) (s0 : σ)
        (msgs : List ReplicaIn) (K : Nat → Nat × Nat),
      (∀ p, ReplicaIn.decision p ∈ msgs → keyOf p.command = K p.s_id) →
      ((replicaRun execF s0 msgs).execLog.map (fun e => keyOf e.2)).Nodup) := by
  constructor
  · intro σ execF r c
    constructor
    · intro h
      unfold perform
      rw [if_pos ((perform_guard_iff _ _ _).mpr h)]
    · intro h
      unfold perform
      rw [if_neg (fun hg => h ((perform_guard_iff _ _ _).mp hg))]
  · intro σ execF s0 msgs K hcompat
    have hinit : KeyInv K
        ({ stable := replicaDefault, state := s0, execLog := [], sent := [], proposed := [] } :
          Replica σ) := by
      refine ⟨List.nodup_nil, ?_, ?_⟩
      · intro e he; cases he
      · intro s c hf
        simp [replicaDefault, AssocMap.find] at hf
    exact (keyInv_run execF K msgs _ hinit hcompat).1

/-- Witness for C7 on a concrete run: two decisions carrying the same
key at different slots are executed only once. -/
theorem perform_at_most_once_witness :
    (∀ p, ReplicaIn.decision p ∈
        [ReplicaIn.decision ⟨0, ⟨5, 7, 1⟩⟩, ReplicaIn.decision ⟨1, ⟨5, 8, 2⟩⟩] →
      keyOf p.command = (fun s => if s = 0 then (5, 7) else (5, 8)) p.s_id) ∧
    ((replicaRun (fun (s : Unit) _ _ => (s, none)) ()
        [ReplicaIn.decision ⟨0, ⟨5, 7, 1⟩⟩, ReplicaIn.decision ⟨1, ⟨5, 8, 2⟩⟩]).execLog.map
      (fun e => keyOf e.2)).Nodup := by
  have hc : ∀ p, ReplicaIn.decision p ∈
      [ReplicaIn.decision ⟨0, ⟨5, 7, 1⟩⟩, ReplicaIn.decision ⟨1, ⟨5, 8, 2⟩⟩] →
      keyOf p.command = (fun s => if s = 0 then ((5 : Nat), (7 : Nat)) else (5, 8)) p.s_id := by
    intro p hp
    rcases List.mem_cons.mp hp with h | hp2
    · injection h with h2
      subst h2
      decide
    · rcases List.mem_cons.mp hp2 with h | h
      · injection h with h2
        subst h2
        decide
      · cases h
  exact ⟨hc, perform_at_most_once.2 Unit (fun s _ _ => (s, none)) ()
    [ReplicaIn.decision ⟨0, ⟨5, 7, 1⟩⟩, ReplicaIn.decision ⟨1, ⟨5, 8, 2⟩⟩]
    (fun s => if s = 0 then (5, 7) else (5, 8)) hc⟩

/-
  C10: every slot below the decision cursor is decided.
-/

/-- Supporting lemma: perform keeps the decision map and advances the
cursor by exactly one. -/
theorem perform_frame {σ : Type} (execF : σ → Nat → Cmd → σ × Option Nat)
    (r : Replica σ) (c : Cmd) :
    (perform execF r c).stable.decisions = r.stable.decisions ∧
    (perform execF r c).stable.decision_slot = r.stable.decision_slot + 1 := by
  unfold perform
  by_cases h : r.stable.decisions.any
      (fun e => cmdEq e.2 c && decide (e.1 < r.stable.decision_slot)) = true <;> simp [h]

/-- C10 counterexample: perform alone does not preserve the invariant:
from the fresh default state, performing any command advances the
cursor to 1 while slot 0 stays unbound in the decision map. -/
theorem replica_perform_counterexample :
    ReplicaInvariant replicaDefault ∧
    ¬ ReplicaInvariant
        (perform (fun (s : Unit) _ _ => (s, none))
          { stable := replicaDefault, state := (), execLog := [], sent := [], proposed := [] }
          ⟨0, 0, 0⟩).stable := by
  constructor
  · intro s hs
    simp [replicaDefault] at hs
  · intro h
    exact absurd (h 0 (by decide)) (by decide)

/-- Supporting lemma: one strictly fewer entry satisfies a strictly
stronger predicate once a witness separating the two is in the list. -/
theorem countP_lt_of_witness {α : Type} (p q : α → Bool) :
    ∀ l : List α, (∀ a ∈ l, p a = true → q a = true) →
      ∀ a0 ∈ l, q a0 = true → p a0 = false → l.countP p < l.countP q := by
  intro l
  induction l with
  | nil => intro _ a0 h; cases h
  | cons x xs ih =>
    intro himp a0 ha0 hq hp
    rw [List.countP_cons, List.countP_cons]
    rcases List.mem_cons.mp ha0 with h0 | h0
    · subst h0
      have hmono : xs.countP p ≤ xs.countP q :=
        List.countP_mono_left (fun a ha hpa => himp a (List.mem_cons_of_mem _ ha) hpa)
      simp [hp, hq]
      omega
    · have hih := ih (fun a ha hpa => himp a (List.mem_cons_of_mem _ ha) hpa) a0 h0 hq hp
      by_cases hx : p x = true
      · have hqx := himp x (List.mem_cons_self _ _) hx
        simp [hx, hqx]
        omega
      · rw [Bool.not_eq_true] at hx
        by_cases hqx : q x = true
        · simp [hx, hqx]
          omega
        · rw [Bool.not_eq_true] at hqx
          simp [hx, hqx]
          omega

/-- Supporting lemma: with fuel exceeding the number of decided slots at
or above the cursor, the decision loop ends because the cursor slot is
undecided, never by running out of fuel; respondDecision passes such
fuel, so the fuel-indexed loop coincides with the source while loop. -/
theorem decisionLoop_exits {σ : Type} (execF : σ → Nat → Cmd → σ × Option Nat) :
    ∀ (fuel : Nat) (r : Replica σ),
      (r.stable.decisions.countP (fun e => decide (r.stable.decision_slot ≤ e.1))) < fuel →
      AssocMap.find (decisionLoop execF fuel r).stable.decisions
        (decisionLoop execF fuel r).stable.decision_slot = none := by
  intro fuel
  induction fuel with
  | zero => intro r h; cases h
  | succ fuel ih =>
    intro r hfuel
    unfold decisionLoop
    cases hf : AssocMap.find r.stable.decisions r.stable.decision_slot with
    | none => exact hf
    | some c1 =>
      obtain ⟨hd, hs, _⟩ := reproposeStep_frame r c1
      have hframe2 := perform_frame execF (reproposeStep r c1) c1
      apply ih
      rw [hframe2.1, hframe2.2, hd, hs]
      have hlt : r.stable.decisions.countP
            (fun e => decide (r.stable.decision_slot + 1 ≤ e.1))
          < r.stable.decisions.countP (fun e => decide (r.stable.decision_slot ≤ e.1)) := by
        refine countP_lt_of_witness _ _ r.stable.decisions ?_
          (r.stable.decision_slot, c1) (AssocMap.find_mem hf) ?_ ?_
        · intro a _ hpa
          rw [decide_eq_true_eq] at hpa
          rw [decide_eq_true_eq]
          omega
        · rw [decide_eq_true_eq]
        · rw [decide_eq_false_iff_not]
          omega
      omega

/-- Supporting lemma: the decision loop of respond_decision always ends
with the cursor slot undecided. -/
theorem respondDecision_exits {σ : Type} (execF : σ → Nat → Cmd → σ × Option Nat)
    (r : Replica σ) (p : Proposal) :
    AssocMap.find (respondDecision execF r p).stable.decisions
      (respondDecision execF r p).stable.decision_slot = none := by
  unfold respondDecision
  apply decisionLoop_exits
  exact Nat.lt_succ_of_le (List.countP_le_length _)

/-- Supporting lemma: the decision loop preserves the invariant for any
fuel. -/
theorem replicaInvariant_decisionLoop {σ : Type} (execF : σ → Nat → Cmd → σ × Option Nat) :
    ∀ (fuel : Nat) (r : Replica σ), ReplicaInvariant r.stable →
      ReplicaInvariant (decisionLoop execF fuel r).stable := by
  intro fuel
  induction fuel with
  | zero => intro r h; exact h
  | succ fuel ih =>
    intro r h
    unfold decisionLoop
    cases hf : AssocMap.find r.stable.decisions r.stable.decision_slot with
    | none => exact h
    | some c1 =>
      obtain ⟨hd, hsl, _⟩ := reproposeStep_frame r c1
      have hframe2 := perform_frame execF (reproposeStep r c1) c1
      apply ih
      intro s hs
      rw [hframe2.2, hsl] at hs
      rw [hframe2.1, hd]
      rcases Nat.lt_succ_iff_lt_or_eq.mp hs with hlt | heq
      · exact h s hlt
      · subst heq
        rw [hf]
        rfl

/-- Supporting lemma: the invariant holds along any replica run from the
fresh default state. -/
theorem replicaInvariant_run {σ : Type} (execF : σ → Nat → Cmd → σ × Option Nat)
    (msgs : List ReplicaIn) :
    ∀ r : Replica σ, ReplicaInvariant r.stable →
      ReplicaInvariant ((msgs.foldl (replicaStep execF) r)).stable := by
  induction msgs with
  | nil => intro r h; exact h
  | cons m rest ih =>
    intro r h
    rw [List.foldl_cons]
    refine ih _ ?_
    cases m with
    | request c =>
      intro s hs
      obtain ⟨hd, hsl, _⟩ := propose_frame r c
      show (AssocMap.find (propose r c).stable.decisions s).isSome = true
      rw [hd]
      rw [show (replicaStep execF r (ReplicaIn.request c)) = propose r c from rfl] at hs
      rw [hsl] at hs
      exact h s hs
    | decision p =>
      show ReplicaInvariant (respondDecision execF r p).stable
      unfold respondDecision
      apply replicaInvariant_decisionLoop
      intro s hs
      show (AssocMap.find (AssocMap.insert _ p.s_id p.command) s).isSome = true
      rw [AssocMap.find_insert]
      by_cases hsp : s = p.s_id
      · rw [if_pos hsp]
        rfl
      · rw [if_neg hsp]
        exact h s hs

/-- Supporting lemma: the recovery replay never fails on a record whose
decision map binds every slot below the cursor. -/
theorem replay_ne_none {σ : Type} (execF : σ → Nat → Cmd → σ × Option Nat) (s0 : σ)
    (st : ReplicaStable) (hinv : ReplicaInvariant st) : replay execF s0 st ≠ none := by
  unfold replay
  have hgen : ∀ (l : List Nat) (acc : Option σ),
      (∀ s ∈ l, (AssocMap.find st.decisions s).isSome = true) → acc ≠ none →
      l.foldl (fun acc slot => acc.bind
        (fun s => (AssocMap.find st.decisions slot).map (fun c => (execF s slot c).1))) acc
        ≠ none := by
    intro l
    induction l with
    | nil => intro acc _ h; exact h
    | cons x xs ih =>
      intro acc hall hacc
      rw [List.foldl_cons]
      refine ih _ (fun s hs => hall s (List.mem_cons_of_mem _ hs)) ?_
      cases hc : acc with
      | none => exact absurd hc hacc
      | some a =>
        have := hall x (List.mem_cons_self _ _)
        cases hd : AssocMap.find st.decisions x with
        | none => rw [hd] at this; cases this
        | some c =>
          simp [hd]
  exact hgen (List.range st.decision_slot) (some s0)
    (fun s hs => hinv s (List.mem_range.mp hs)) (by simp)

/-- C10 amended: respond_decision and propose preserve the invariant
that every slot strictly below the decision cursor is bound in the
decision map, and perform preserves it whenever the cursor slot is
currently bound, which holds at its unique call site inside the decision
loop; consequently the invariant holds after any run from the fresh
default state, and the startup recovery loop, which indexes the decision
map at every slot below the persisted cursor, never looks up a missing
key on such a state. -/
theorem replica_invariant_spec :
    (∀ (σ : Type) (r : Replica σ) (c : Cmd), ReplicaInvariant r.stable →
      ReplicaInvariant (propose r c).stable) ∧
    (∀ (σ : Type) (execF : σ → Nat → Cmd → σ × Option Nat) (r : Replica σ) (c : Cmd),
      ReplicaInvariant r.stable →
      (AssocMap.find r.stable.decisions r.stable.decision_slot).isSome = true →
      ReplicaInvariant (perform execF r c).stable) ∧
    (∀ (σ : Type) (execF : σ → Nat → Cmd → σ × Option Nat) (r : Replica σ) (p : Proposal),
      ReplicaInvariant r.stable → ReplicaInvariant (respondDecision execF r p).stable) ∧
    (∀ (σ : Type) (execF : σ → Nat → Cmd → σ × Option Nat) (s0 : σ) (msgs : List ReplicaIn),
      ReplicaInvariant (replicaRun execF s0 msgs).stable) ∧
    (∀ (σ : Type) (execF : σ → Nat → Cmd → σ × Option Nat) (s0 t0 : σ)
        (msgs : List ReplicaIn),
      replay execF t0 (replicaRun execF s0 msgs).stable ≠ none) := by
  have hinit : ∀ σ : Type, ∀ s0 : σ, ReplicaInvariant
      (({ stable := replicaDefault, state := s0, execLog := [], sent := [], proposed := [] } :
        Replica σ)).stable := by
    intro σ s0 s hs
    simp [replicaDefault] at hs
  refine ⟨?_, ?_, ?_, ?_, ?_⟩
  · intro σ r c hinv s hs
    obtain ⟨hd, hsl, _⟩ := propose_frame r c
    rw [hd]
    rw [hsl] at hs
    exact hinv s hs
  · intro σ execF r c hinv hsome s hs
    obtain ⟨hd, hsl⟩ := perform_frame execF r c
    rw [hd]
    rw [hsl] at hs
    rcases Nat.lt_succ_iff_lt_or_eq.mp hs with hlt | heq
    · exact hinv s hlt
    · subst heq
      exact hsome
  · intro σ execF r p hinv
    unfold respondDecision
    apply replicaInvariant_decisionLoop
    intro s hs
    show (AssocMap.find (AssocMap.insert _ p.s_id p.command) s).isSome = true
    rw [AssocMap.find_insert]
    by_cases hsp : s = p.s_id
    · rw [if_pos hsp]
      rfl
    · rw [if_neg hsp]
      exact hinv s hs
  · intro σ execF s0 msgs
    exact replicaInvariant_run execF msgs _ (hinit σ s0)
  · intro σ execF s0 t0 msgs
    exact replay_ne_none execF t0 _ (replicaInvariant_run execF msgs _ (hinit σ s0))

/-- Witness for C10 on a concrete run ending with a decided slot 0:
recovery of the resulting record succeeds. -/
theorem replica_invariant_spec_witness :
    replay (fun (s : Unit) _ _ => (s, none)) ()
      (replicaRun (fun (s : Unit) _ _ => (s, none)) ()
        [ReplicaIn.decision ⟨0, ⟨5, 7, 1⟩⟩]).stable ≠ none :=
  replica_invariant_spec.2.2.2.2 Unit (fun s _ _ => (s, none)) () ()
    [ReplicaIn.decision ⟨0, ⟨5, 7, 1⟩⟩]

end Paxos
